import Mathlib

/-!
Verification of the solana-pool repository: shallow embedding of the holder
registry (src/scripts/cron-bot-live.ts), the orchestrator loop, the demo
distribution calculations (src/app/index.js, src/unnamed/part_001), the
withdraw entry point (src/scripts/withdraw.ts), and the distribution-engine
contract of the on-chain program described by the spec.
-/

namespace SolanaPool

/-! ## Holder registry: fetchTopHolders in src/scripts/cron-bot-live.ts -/

/-- A decoded SPL token account as seen by fetchTopHolders: the owning wallet
address, whether that owner lies on the ed25519 curve (PublicKey.isOnCurve),
and the token amount. Addresses are modelled as naturals; a `none` candidate
models a null accountInfo or a failed AccountLayout.decode, which the code
skips. -/
structure TokenAccount where
  owner : Nat
  onCurve : Bool
  amount : Nat
deriving DecidableEq, Repr

/-- One entry of the holder map: owner address paired with accumulated balance. -/
abbrev Entry := Nat × Nat

/-- holderMap.set(key, existing.add(amount)): sum into an existing entry for
the same owner, keeping its position (JavaScript Map.set on an existing key
keeps insertion order), or append a fresh entry at the end. -/
def insertHolder : List Entry → Nat → Nat → List Entry
  | [], a, v => [(a, v)]
  | (b, w) :: m, a, v =>
    if b = a then (b, w + v) :: m else (b, w) :: insertHolder m a v

/-- The forEach body of fetchTopHolders applied to one fetched account info:
skip null infos, skip off-curve owners, skip zero amounts, otherwise
accumulate the amount under the owner key. -/
def processCand (m : List Entry) (c : Option TokenAccount) : List Entry :=
  match c with
  | none => m
  | some tAcc =>
    if tAcc.onCurve then
      if tAcc.amount = 0 then m else insertHolder m tAcc.owner tAcc.amount
    else m

/-- Left fold of processCand over the candidate list, starting from map m. -/
def buildGo (m : List Entry) : List (Option TokenAccount) → List Entry
  | [] => m
  | c :: cs => buildGo (processCand m c) cs

/-- The holder map fetchTopHolders builds from the fetched account infos. -/
def buildHolderMap (cs : List (Option TokenAccount)) : List Entry :=
  buildGo [] cs

/-- Stable insertion into a list already sorted by descending balance: the
inserted element (which comes earlier in the input than everything already
sorted) goes before the first entry whose balance is less than or equal to
its own. This is the unique stable realisation of the Array.sort comparator
(a, b) => b.balance.cmp(a.balance). -/
def insertDesc (x : Entry) : List Entry → List Entry
  | [] => [x]
  | y :: ys => if y.2 ≤ x.2 then x :: y :: ys else y :: insertDesc x ys

/-- Insertion sort, descending by balance; stable, as JavaScript
Array.prototype.sort is specified to be. -/
def sortDesc : List Entry → List Entry
  | [] => []
  | x :: xs => insertDesc x (sortDesc xs)

/-- fetchTopHolders(limit): keep only the first limit*2 largest token accounts
(upperBound = Math.min(length, limit * 2)), merge balances per on-curve owner
skipping zero amounts, sort descending by balance (stable) and truncate to
limit. The early return for an empty largest.value coincides with the general
formula. -/
def fetchTopHolders (cands : List (Option TokenAccount)) (limit : Nat) :
    List Entry :=
  (sortDesc (buildHolderMap (cands.take (limit * 2)))).take limit

/-- Whether candidate c survives the filters: present, on-curve owner,
nonzero amount. -/
def isElig : Option TokenAccount → Bool
  | none => false
  | some tAcc => tAcc.onCurve && tAcc.amount != 0

/-- Whether c is an eligible candidate owned by address a. -/
def eligOwner (c : Option TokenAccount) (a : Nat) : Bool :=
  match c with
  | none => false
  | some tAcc => tAcc.onCurve && tAcc.amount != 0 && tAcc.owner == a

/-- Amount carried by candidate c (0 for a missing info). -/
def amtOf : Option TokenAccount → Nat
  | none => 0
  | some tAcc => tAcc.amount

/-- Contribution of candidate c to the balance of owner a. -/
def contrib (c : Option TokenAccount) (a : Nat) : Nat :=
  if eligOwner c a then amtOf c else 0

/-- Total balance the candidate list attributes to owner a: the sum of the
amounts of all eligible candidates owned by a. -/
def sumAmt : List (Option TokenAccount) → Nat → Nat
  | [], _ => 0
  | c :: cs, a => contrib c a + sumAmt cs a

/-- Whether some eligible candidate is owned by a. -/
def eligOccurs (cs : List (Option TokenAccount)) (a : Nat) : Bool :=
  cs.any (fun c => eligOwner c a)

/-- Index of the first eligible candidate owned by a (list length if none). -/
def firstOcc : List (Option TokenAccount) → Nat → Nat
  | [], _ => 0
  | c :: cs, a => if eligOwner c a then 0 else firstOcc cs a + 1

/-- Balance recorded for address a in holder map m (0 if absent). -/
def lookupAmt : List Entry → Nat → Nat
  | [], _ => 0
  | (b, w) :: m, a => if b = a then w else lookupAmt m a

/-- Keys of a holder map, in insertion order. -/
def keysOf (m : List Entry) : List Nat := m.map Prod.fst

/-- Descending order with a tie relation D: a later entry has a smaller or
equal balance, and on an exactly equal balance D relates the two entries. -/
def sortRel (D : Entry → Entry → Prop) (p q : Entry) : Prop :=
  q.2 ≤ p.2 ∧ (p.2 = q.2 → D p q)

/-! ## Orchestrator: main in src/scripts/cron-bot-live.ts -/

/-- External calls the orchestrator can make, in the order it makes them. An
updateHolders request is an instruction the reward-pool program exposes
(updateTopHolders); it is listed so that its absence from a trace is a
statement about the run. -/
inductive Step
  | queryPending
  | claimFees
  | fetchHolders
  | updateHolders
  | distribute
deriving DecidableEq, Repr

/-- The environment one cron run observes: the pending creator rewards in SOL
(none models a throwing RPC call), the configured REWARD_THRESHOLD_SOL, and
the outcomes of the three external submissions (none models a throw). -/
structure OrchestratorEnv where
  pending : Option ℚ
  threshold : ℚ
  claimSig : Option Nat
  cands : Option (List (Option TokenAccount))
  distSig : Option Nat

/-- main() of cron-bot-live.ts together with its .then/.catch exit handlers:
query pending rewards; if below threshold, log and return (exit 0); otherwise
collect creator fees, fetch the top 20 holders, abort cleanly when the list is
empty, and otherwise submit one distributeRewards transaction carrying the
holder list. The result is the process exit code paired with the ordered
trace of external calls made. -/
def mainRun (env : OrchestratorEnv) : Nat × List Step :=
  match env.pending with
  | none => (1, [Step.queryPending])
  | some p =>
    if p < env.threshold then (0, [Step.queryPending])
    else
      match env.claimSig with
      | none => (1, [Step.queryPending, Step.claimFees])
      | some _ =>
        match env.cands with
        | none => (1, [Step.queryPending, Step.claimFees, Step.fetchHolders])
        | some cs =>
          let holders := fetchTopHolders cs 20
          if holders.isEmpty then
            (0, [Step.queryPending, Step.claimFees, Step.fetchHolders])
          else
            match env.distSig with
            | none =>
              (1, [Step.queryPending, Step.claimFees, Step.fetchHolders,
                Step.distribute])
            | some _ =>
              (0, [Step.queryPending, Step.claimFees, Step.fetchHolders,
                Step.distribute])

/-! ## distributeRewards in src/scripts/cron-bot-live.ts -/

/-- Pool counters as stored in the on-chain rewardPool account and read back
by the scripts. -/
structure Pool where
  totalRewardsReceived : Nat
  totalDistributed : Nat
deriving DecidableEq, Repr

/-- Failure of the client-side distribute entry point; emptyHolderSet stands
for the thrown Error (No holders available for distribution). -/
inductive DistErr
  | emptyHolderSet
deriving DecidableEq, Repr

/-- A distribute transaction the bot would submit: the holder list attached
to the distributeRewards instruction. -/
structure DistributeReq where
  holders : List Entry
deriving DecidableEq, Repr

/-- distributeRewards(holders) of cron-bot-live.ts: throw before building any
transaction when the holder list is empty, otherwise submit one transaction
carrying the holders. -/
def distributeRewardsBot (holders : List Entry) :
    Except DistErr DistributeReq :=
  if holders.isEmpty then Except.error DistErr.emptyHolderSet
  else Except.ok { holders := holders }

/-- Ledger requests actually submitted by a distribute call: none when it
threw, the single built transaction otherwise. -/
def submittedReqs : Except DistErr DistributeReq → List DistributeReq
  | Except.error _ => []
  | Except.ok r => [r]

/-! ## DistributionEngine (on-chain program, modelled from the spec) -/

/-- Arithmetic failure of the distribution engine. -/
inductive EngineErr
  | arithmeticOverflow
deriving DecidableEq, Repr

/-- Modelled from the spec: the EQUAL mode of computeShares in the on-chain
DistributionEngine (programs/reward-pool/src/lib.rs, which is not under
src/). share = totalAmount / holderCount by integer floor division; every
holder receives exactly share; remainder = totalAmount - share * holderCount
stays in the vault. -/
def computeSharesEqual (totalAmount holderCount : Nat) : List Nat × Nat :=
  let share := totalAmount / holderCount
  (List.replicate holderCount share, totalAmount - share * holderCount)

/-- Modelled from the spec: the widened checked product of the PROPORTIONAL
mode (programs/reward-pool/src/lib.rs, not under src/; the README in
src/unnamed/part_002 documents its math overflow protection). The u64 inputs
are multiplied in the widened u128 domain; a product that does not fit u128
fails with ArithmeticOverflow instead of wrapping. -/
def checkedMulU128 (x y : Nat) : Except EngineErr Nat :=
  if x * y < 2 ^ 128 then Except.ok (x * y)
  else Except.error EngineErr.arithmeticOverflow

/-- Modelled from the spec: one PROPORTIONAL share,
floor(totalAmount * balance / weightSum), with the intermediate product
computed by checked widened multiplication. -/
def checkedShare (totalAmount balance weightSum : Nat) :
    Except EngineErr Nat :=
  match checkedMulU128 totalAmount balance with
  | Except.error e => Except.error e
  | Except.ok prod => Except.ok (prod / weightSum)

/-! ## Proportional demo calculation in src/unnamed/part_001 -/

/-- A holder as the demo scripts use it: an address with a token balance. -/
structure Holder where
  address : Nat
  balance : Nat
deriving DecidableEq, Repr

/-- totalBalance = holders.reduce((sum, holder) => sum + holder.balance, 0)
in RewardPoolManager.simulateDistribution of src/unnamed/part_001. -/
def totalBalance (holders : List Holder) : Nat :=
  holders.foldl (fun s h => s + h.balance) 0

/-- The per-holder share list of RewardPoolManager.simulateDistribution in
src/unnamed/part_001: share = Math.floor((totalAmount * balance) / totalBalance)
for each holder, with totalBalance computed once over the same list. -/
def simulateDistributionShares (totalAmount : Nat) (holders : List Holder) :
    List Nat :=
  let tb := totalBalance holders
  holders.map (fun h => totalAmount * h.balance / tb)

/-! ## Owner withdraw entry point: src/scripts/withdraw.ts -/

/-- The value Number(WITHDRAW_SOL_AMOUNT) can take: NaN for a non-numeric
string, signed infinities, or a finite numeric value (modelled exactly as a
rational). -/
inductive ParsedAmount
  | nan
  | inf
  | negInf
  | num (q : ℚ)
deriving DecidableEq

/-- The value of Math.floor(Number(RAW_AMOUNT_SOL) * LAMPORTS_PER_SOL):
floor maps NaN to NaN and infinities to themselves, and a finite value to an
integer. -/
inductive LamportsVal
  | nan
  | inf
  | negInf
  | int (z : ℤ)
deriving DecidableEq

/-- amountLamports = Math.floor(Number(RAW_AMOUNT_SOL) * LAMPORTS_PER_SOL)
with LAMPORTS_PER_SOL = 1000000000. -/
def amountLamports : ParsedAmount → LamportsVal
  | ParsedAmount.nan => LamportsVal.nan
  | ParsedAmount.inf => LamportsVal.inf
  | ParsedAmount.negInf => LamportsVal.negInf
  | ParsedAmount.num q => LamportsVal.int ⌊q * 1000000000⌋

/-- Number.isNaN(amountLamports). -/
def isNaNLamports : LamportsVal → Bool
  | LamportsVal.nan => true
  | _ => false

/-- amountLamports <= 0 with JavaScript comparison semantics: false for NaN
and positive infinity, true for negative infinity. -/
def lamportsNonpos : LamportsVal → Bool
  | LamportsVal.nan => false
  | LamportsVal.inf => false
  | LamportsVal.negInf => true
  | LamportsVal.int z => z ≤ 0

/-- Failures raised by withdraw.ts before any ledger request. -/
inductive WithdrawErr
  | missingAmount
  | invalidAmount
deriving DecidableEq, Repr

/-- The guards of withdraw.ts: throw when WITHDRAW_SOL_AMOUNT is missing
(raw = none); convert to lamports; throw when
Number.isNaN(amountLamports) || amountLamports <= 0; otherwise proceed to
submit an ownerWithdraw for that lamport value. -/
def withdrawGuard (raw : Option ParsedAmount) :
    Except WithdrawErr LamportsVal :=
  match raw with
  | none => Except.error WithdrawErr.missingAmount
  | some pa =>
    let l := amountLamports pa
    if isNaNLamports l || lamportsNonpos l then
      Except.error WithdrawErr.invalidAmount
    else Except.ok l

/-- Ledger requests submitted by a withdraw run: none when a guard threw. -/
def submittedWithdrawals : Except WithdrawErr LamportsVal → List LamportsVal
  | Except.error _ => []
  | Except.ok l => [l]

/-! ## Arithmetic lemmas for the distribution claims -/

theorem totalBalance_go (hs : List Holder) (a : Nat) :
    hs.foldl (fun s h => s + h.balance) a = a + (hs.map Holder.balance).sum := by
  induction hs generalizing a with
  | nil => simp
  | cons h t ih => simp [List.foldl_cons, ih, Nat.add_assoc]

theorem totalBalance_eq (hs : List Holder) :
    totalBalance hs = (hs.map Holder.balance).sum := by
  simpa using totalBalance_go hs 0

theorem sum_div_add_mod (t W : Nat) (bs : List Nat) :
    W * (bs.map (fun b => t * b / W)).sum
      + (bs.map (fun b => t * b % W)).sum = t * bs.sum := by
  induction bs with
  | nil => simp
  | cons b bs ih =>
    have hdm : W * (t * b / W) + t * b % W = t * b := Nat.div_add_mod (t * b) W
    calc W * ((t * b / W) + (bs.map (fun b => t * b / W)).sum)
          + ((t * b % W) + (bs.map (fun b => t * b % W)).sum)
        = (W * (t * b / W) + t * b % W)
            + (W * (bs.map (fun b => t * b / W)).sum
              + (bs.map (fun b => t * b % W)).sum) := by ring
      _ = t * b + t * bs.sum := by rw [hdm, ih]
      _ = t * (b + bs.sum) := by ring

/-- C1. For every totalAmount and holder count greater than zero, the EQUAL
distribution mode produces exactly holderCount payouts, each equal to
floor(totalAmount / holderCount) by integer division, and the sum of the
payouts plus the remainder equals totalAmount: the remainder is never
allocated to any holder. -/
theorem equal_mode_conservation (total count : Nat) (_hcount : 0 < count) :
    (computeSharesEqual total count).1.length = count ∧
    (∀ p ∈ (computeSharesEqual total count).1, p = total / count) ∧
    (computeSharesEqual total count).1.sum + (computeSharesEqual total count).2
      = total := by
  refine ⟨by simp [computeSharesEqual], ?_, ?_⟩
  · intro p hp
    simpa [computeSharesEqual] using (List.eq_of_mem_replicate hp)
  · have hle : total / count * count ≤ total := Nat.div_mul_le_self total count
    have hcomm : count * (total / count) = total / count * count :=
      Nat.mul_comm count (total / count)
    simp only [computeSharesEqual, List.sum_replicate, smul_eq_mul]
    omega

/-- Witness for C1 at the spec example totalAmount = 1000000007, count = 20. -/
theorem equal_mode_conservation_witness :
    0 < 20 ∧
    ((computeSharesEqual 1000000007 20).1.length = 20 ∧
    (∀ p ∈ (computeSharesEqual 1000000007 20).1, p = 1000000007 / 20) ∧
    (computeSharesEqual 1000000007 20).1.sum
      + (computeSharesEqual 1000000007 20).2 = 1000000007) :=
  ⟨by decide, equal_mode_conservation 1000000007 20 (by decide)⟩

/-- C3. The PROPORTIONAL share computation multiplies in the widened integer
domain with a checked product: when the intermediate product fits the
representable u128 range the result is the exact floor quotient, and when it
exceeds that range the computation fails with ArithmeticOverflow; an ok
result is never a wrapped or imprecise value. -/
theorem proportional_checked_overflow (t b w : Nat) :
    (t * b < 2 ^ 128 → checkedShare t b w = Except.ok (t * b / w)) ∧
    (2 ^ 128 ≤ t * b →
      checkedShare t b w = Except.error EngineErr.arithmeticOverflow) ∧
    (∀ r, checkedShare t b w = Except.ok r → r = t * b / w) := by
  have hok : t * b < 2 ^ 128 → checkedShare t b w = Except.ok (t * b / w) := by
    intro h
    simp only [checkedShare, checkedMulU128]
    rw [if_pos h]
  have herr : ¬ t * b < 2 ^ 128 →
      checkedShare t b w = Except.error EngineErr.arithmeticOverflow := by
    intro h
    simp only [checkedShare, checkedMulU128]
    rw [if_neg h]
  refine ⟨hok, fun h => herr (Nat.not_lt.mpr h), ?_⟩
  · intro r hr
    by_cases h : t * b < 2 ^ 128
    · have := (hok h).symm.trans hr
      exact (Except.ok.inj this).symm
    · rw [herr h] at hr
      exact Except.noConfusion hr

/-- Witness for C3: a product beyond the u128 range fails with
ArithmeticOverflow, and a small product divides exactly. -/
theorem proportional_checked_overflow_witness :
    checkedShare (2 ^ 127) 4 3 = Except.error EngineErr.arithmeticOverflow ∧
    checkedShare 10 3 4 = Except.ok 7 := by
  constructor
  · exact (proportional_checked_overflow (2 ^ 127) 4 3).2.1 (by norm_num)
  · exact (proportional_checked_overflow 10 3 4).1 (by norm_num)

/-- C2. For every PROPORTIONAL input whose weight sum is positive, each
holder's payout is floor(totalAmount * balance / weightSum); the payouts sum
to at most totalAmount, with equality exactly when every product
balance * totalAmount is divisible by the weight sum. -/
theorem proportional_floor_sum (t : Nat) (hs : List Holder)
    (hpos : 0 < totalBalance hs) :
    simulateDistributionShares t hs
      = hs.map (fun h => t * h.balance / totalBalance hs) ∧
    (simulateDistributionShares t hs).sum ≤ t ∧
    ((simulateDistributionShares t hs).sum = t ↔
      ∀ h ∈ hs, totalBalance hs ∣ h.balance * t) := by
  set W := totalBalance hs with hW
  have hmap : simulateDistributionShares t hs
      = (hs.map Holder.balance).map (fun b => t * b / W) := by
    simp [simulateDistributionShares, ← hW, List.map_map, Function.comp]
  set bs := hs.map Holder.balance with hbs
  have hsum : bs.sum = W := (totalBalance_eq hs).symm
  have hkey : W * (bs.map (fun b => t * b / W)).sum
      + (bs.map (fun b => t * b % W)).sum = t * W := by
    simpa [hsum] using sum_div_add_mod t W bs
  set S := (bs.map (fun b => t * b / W)).sum with hS
  set R := (bs.map (fun b => t * b % W)).sum with hR
  have hSsum : (simulateDistributionShares t hs).sum = S := by rw [hmap]
  have hle : S ≤ t := by
    have h1 : W * S ≤ W * t := by
      have := Nat.le.intro hkey
      calc W * S ≤ t * W := this
        _ = W * t := Nat.mul_comm t W
    exact Nat.le_of_mul_le_mul_left h1 hpos
  refine ⟨hmap.trans (by rw [hbs, List.map_map]; rfl), ?_, ?_⟩
  · rw [hSsum]; exact hle
  · rw [hSsum]
    have hiff : S = t ↔ R = 0 := by
      constructor
      · intro h
        have : W * t + R = W * t + 0 := by
          calc W * t + R = W * S + R := by rw [h]
            _ = t * W := hkey
            _ = W * t + 0 := by ring
        exact Nat.add_left_cancel this
      · intro h
        have h2 : W * S = W * t := by
          have : W * S + 0 = t * W := by rw [← h]; exact hkey
          calc W * S = t * W := by omega
            _ = W * t := Nat.mul_comm t W
        exact Nat.eq_of_mul_eq_mul_left hpos h2
    have hzero : R = 0 ↔ ∀ h ∈ hs, W ∣ h.balance * t := by
      rw [hR, List.sum_eq_zero_iff]
      constructor
      · intro hall h hmem
        have : t * h.balance % W = 0 := by
          exact hall _ (List.mem_map_of_mem _ (List.mem_map_of_mem _ hmem))
        have hdvd : W ∣ t * h.balance :=
          Nat.dvd_iff_mod_eq_zero.mpr this
        calc W ∣ t * h.balance := hdvd
          _ = h.balance * t := Nat.mul_comm t h.balance
      · intro hall x hx
        rcases List.mem_map.mp hx with ⟨b, hb, rfl⟩
        rcases List.mem_map.mp hb with ⟨h, hmem, rfl⟩
        have hdvd : W ∣ t * h.balance := by
          have := hall h hmem
          calc W ∣ h.balance * t := this
            _ = t * h.balance := Nat.mul_comm h.balance t
        exact Nat.dvd_iff_mod_eq_zero.mp hdvd
    exact hiff.trans hzero

/-- Closed instance of the C2 theorem at the spec example: balances
1000, 800, 600, 400, 200 and totalAmount 1000. -/
theorem proportional_floor_sum_witness :
    (simulateDistributionShares 1000
      [⟨1, 1000⟩, ⟨2, 800⟩, ⟨3, 600⟩, ⟨4, 400⟩, ⟨5, 200⟩]).sum ≤ 1000 :=
  (proportional_floor_sum 1000
    [⟨1, 1000⟩, ⟨2, 800⟩, ⟨3, 600⟩, ⟨4, 400⟩, ⟨5, 200⟩] (by decide)).2.1

/-! ## Holder-map lemmas -/

theorem eligOwner_some_iff (tAcc : TokenAccount) (a : Nat) :
    eligOwner (some tAcc) a = true ↔
      tAcc.onCurve = true ∧ tAcc.amount ≠ 0 ∧ tAcc.owner = a := by
  simp [eligOwner, and_assoc]

theorem isElig_of_eligOwner (c : Option TokenAccount) (a : Nat)
    (h : eligOwner c a = true) : isElig c = true := by
  match c with
  | none => simp [eligOwner] at h
  | some tAcc =>
    rcases (eligOwner_some_iff tAcc a).mp h with ⟨h1, h2, _⟩
    simp [isElig, h1, h2]

theorem eligOwner_false_of_not_elig (c : Option TokenAccount) (a : Nat)
    (h : isElig c = false) : eligOwner c a = false := by
  cases hE : eligOwner c a
  · rfl
  · rw [isElig_of_eligOwner c a hE] at h
    exact Bool.noConfusion h

theorem processCand_of_not_elig (m : List Entry) (c : Option TokenAccount)
    (h : isElig c = false) : processCand m c = m := by
  match c with
  | none => rfl
  | some tAcc =>
    by_cases hcu : tAcc.onCurve = true
    · have hz : tAcc.amount = 0 := by simpa [isElig, hcu] using h
      simp [processCand, hcu, hz]
    · simp [processCand, hcu]

theorem lookupAmt_insertHolder (m : List Entry) (a v b : Nat) :
    lookupAmt (insertHolder m a v) b
      = lookupAmt m b + (if a = b then v else 0) := by
  induction m with
  | nil =>
    by_cases h : a = b
    · simp [insertHolder, lookupAmt, h]
    · simp [insertHolder, lookupAmt, h]
  | cons e rest ih =>
    obtain ⟨k, w⟩ := e
    by_cases hka : k = a
    · subst hka
      by_cases hkb : k = b
      · subst hkb
        simp [insertHolder, lookupAmt]
      · simp [insertHolder, lookupAmt, hkb]
    · by_cases hkb : k = b
      · subst hkb
        have hab : ¬ a = k := fun hcon => hka hcon.symm
        simp [insertHolder, lookupAmt, hka, hab]
      · simp [insertHolder, lookupAmt, hka, hkb, ih]

theorem lookupAmt_processCand (m : List Entry) (c : Option TokenAccount)
    (a : Nat) :
    lookupAmt (processCand m c) a = lookupAmt m a + contrib c a := by
  match c with
  | none => simp [processCand, contrib, eligOwner]
  | some tAcc =>
    by_cases hcu : tAcc.onCurve = true
    · by_cases hz : tAcc.amount = 0
      · simp [processCand, contrib, eligOwner, hcu, hz]
      · have hstep : processCand m (some tAcc)
            = insertHolder m tAcc.owner tAcc.amount := by
          simp [processCand, hcu, hz]
        rw [hstep, lookupAmt_insertHolder]
        by_cases ho : tAcc.owner = a
        · simp [contrib, eligOwner, amtOf, hcu, hz, ho]
        · simp [contrib, eligOwner, amtOf, hcu, hz, ho]
    · simp [processCand, contrib, eligOwner, hcu]

theorem lookupAmt_buildGo (cs : List (Option TokenAccount)) (m : List Entry)
    (a : Nat) :
    lookupAmt (buildGo m cs) a = lookupAmt m a + sumAmt cs a := by
  induction cs generalizing m with
  | nil => simp [buildGo, sumAmt]
  | cons c cs ih =>
    simp [buildGo, sumAmt, ih, lookupAmt_processCand, Nat.add_assoc]

theorem lookupAmt_buildHolderMap (cs : List (Option TokenAccount)) (a : Nat) :
    lookupAmt (buildHolderMap cs) a = sumAmt cs a := by
  simpa [buildHolderMap, lookupAmt] using lookupAmt_buildGo cs [] a

theorem mem_keysOf_cons (a k w : Nat) (rest : List Entry) :
    a ∈ keysOf ((k, w) :: rest) ↔ a = k ∨ a ∈ keysOf rest := by
  simp [keysOf]

theorem keysOf_insertHolder_mem (m : List Entry) (a v : Nat)
    (h : a ∈ keysOf m) : keysOf (insertHolder m a v) = keysOf m := by
  induction m with
  | nil => simp [keysOf] at h
  | cons e rest ih =>
    obtain ⟨k, w⟩ := e
    by_cases hka : k = a
    · subst hka
      simp [insertHolder, keysOf]
    · have hmem : a ∈ keysOf rest := by
        rcases (mem_keysOf_cons a k w rest).mp h with h1 | h1
        · exact absurd h1.symm hka
        · exact h1
      have hstep : keysOf (insertHolder ((k, w) :: rest) a v)
          = k :: keysOf (insertHolder rest a v) := by
        simp [insertHolder, hka, keysOf]
      rw [hstep, ih hmem]
      simp [keysOf]

theorem keysOf_insertHolder_notMem (m : List Entry) (a v : Nat)
    (h : a ∉ keysOf m) : keysOf (insertHolder m a v) = keysOf m ++ [a] := by
  induction m with
  | nil => simp [insertHolder, keysOf]
  | cons e rest ih =>
    obtain ⟨k, w⟩ := e
    have hka : ¬ k = a := fun hcon =>
      h ((mem_keysOf_cons a k w rest).mpr (Or.inl hcon.symm))
    have hrest : a ∉ keysOf rest := fun hcon =>
      h ((mem_keysOf_cons a k w rest).mpr (Or.inr hcon))
    have hstep : keysOf (insertHolder ((k, w) :: rest) a v)
        = k :: keysOf (insertHolder rest a v) := by
      simp [insertHolder, hka, keysOf]
    rw [hstep, ih hrest]
    simp [keysOf]

theorem buildGo_append (cs ds : List (Option TokenAccount)) (m : List Entry) :
    buildGo m (cs ++ ds) = buildGo (buildGo m cs) ds := by
  induction cs generalizing m with
  | nil => simp [buildGo]
  | cons c cs ih => simp [buildGo, ih]

theorem buildHolderMap_concat (cs : List (Option TokenAccount))
    (c : Option TokenAccount) :
    buildHolderMap (cs ++ [c]) = processCand (buildHolderMap cs) c := by
  simp [buildHolderMap, buildGo_append, buildGo]

theorem eligOccurs_append (cs ds : List (Option TokenAccount)) (a : Nat) :
    eligOccurs (cs ++ ds) a = (eligOccurs cs a || eligOccurs ds a) := by
  simp [eligOccurs, List.any_append]

theorem firstOcc_lt_length (cs : List (Option TokenAccount)) (a : Nat)
    (h : eligOccurs cs a = true) : firstOcc cs a < cs.length := by
  induction cs with
  | nil => simp [eligOccurs] at h
  | cons c cs ih =>
    by_cases hc : eligOwner c a = true
    · simp [firstOcc, hc]
    · have h2 : eligOccurs cs a = true := by
        simpa [eligOccurs, hc] using h
      have := ih h2
      simp [firstOcc, hc]
      omega

theorem firstOcc_append_of_occurs (cs ds : List (Option TokenAccount))
    (a : Nat) (h : eligOccurs cs a = true) :
    firstOcc (cs ++ ds) a = firstOcc cs a := by
  induction cs with
  | nil => simp [eligOccurs] at h
  | cons c cs ih =>
    by_cases hc : eligOwner c a = true
    · simp [firstOcc, hc]
    · have h2 : eligOccurs cs a = true := by
        simpa [eligOccurs, hc] using h
      simp [firstOcc, hc, ih h2]

theorem firstOcc_append_of_not (cs ds : List (Option TokenAccount)) (a : Nat)
    (h : eligOccurs cs a = false) :
    firstOcc (cs ++ ds) a = cs.length + firstOcc ds a := by
  induction cs with
  | nil => simp [firstOcc]
  | cons c cs ih =>
    have hparts : eligOwner c a = false ∧ eligOccurs cs a = false := by
      simpa [eligOccurs, List.any_cons] using h
    have := ih hparts.2
    simp [firstOcc, hparts.1, List.cons_append]
    omega

theorem eligOccurs_singleton (c : Option TokenAccount) (a : Nat) :
    eligOccurs [c] a = eligOwner c a := by
  simp [eligOccurs]

theorem pairwise_firstOcc_extend (cs ds : List (Option TokenAccount))
    (K : List Nat) (hmem : ∀ a ∈ K, eligOccurs cs a = true)
    (h : K.Pairwise (fun a b => firstOcc cs a < firstOcc cs b)) :
    K.Pairwise (fun a b => firstOcc (cs ++ ds) a < firstOcc (cs ++ ds) b) := by
  refine h.imp_of_mem ?_
  intro a b ha hb hlt
  rw [firstOcc_append_of_occurs cs ds a (hmem a ha),
    firstOcc_append_of_occurs cs ds b (hmem b hb)]
  exact hlt

theorem buildHolderMap_keys (cs : List (Option TokenAccount)) :
    (∀ a, a ∈ keysOf (buildHolderMap cs) ↔ eligOccurs cs a = true) ∧
    (keysOf (buildHolderMap cs)).Pairwise
      (fun a b => firstOcc cs a < firstOcc cs b) := by
  induction cs using List.reverseRecOn with
  | nil =>
    constructor
    · intro a
      simp [buildHolderMap, buildGo, keysOf, eligOccurs]
    · simp [buildHolderMap, buildGo, keysOf]
  | append_singleton cs c ih =>
    obtain ⟨ihMem, ihPW⟩ := ih
    rw [buildHolderMap_concat]
    by_cases hE : isElig c = true
    case neg =>
      have hEf : isElig c = false := by
        cases hEE : isElig c
        · rfl
        · exact absurd hEE hE
      rw [processCand_of_not_elig _ _ hEf]
      constructor
      · intro a
        rw [ihMem a, eligOccurs_append, eligOccurs_singleton,
          eligOwner_false_of_not_elig c a hEf]
        simp
      · exact pairwise_firstOcc_extend cs [c] _
          (fun a ha => (ihMem a).mp ha) ihPW
    case pos =>
      obtain ⟨tAcc, rfl⟩ : ∃ tAcc, c = some tAcc := by
        cases c with
        | none => simp [isElig] at hE
        | some tAcc => exact ⟨tAcc, rfl⟩
      have hcu : tAcc.onCurve = true ∧ tAcc.amount ≠ 0 := by
        simpa [isElig] using hE
      have hstep : processCand (buildHolderMap cs) (some tAcc)
          = insertHolder (buildHolderMap cs) tAcc.owner tAcc.amount := by
        simp [processCand, hcu.1, hcu.2]
      rw [hstep]
      have hEO : ∀ a, eligOwner (some tAcc) a = true ↔ tAcc.owner = a := by
        intro a
        rw [eligOwner_some_iff]
        exact ⟨fun h => h.2.2, fun h => ⟨hcu.1, hcu.2, h⟩⟩
      have hEOf : ∀ a, tAcc.owner ≠ a → eligOwner (some tAcc) a = false := by
        intro a hne
        cases hEa : eligOwner (some tAcc) a
        · rfl
        · exact absurd ((hEO a).mp hEa) hne
      by_cases hk : tAcc.owner ∈ keysOf (buildHolderMap cs)
      · rw [keysOf_insertHolder_mem _ _ _ hk]
        constructor
        · intro a
          rw [ihMem a, eligOccurs_append, eligOccurs_singleton]
          by_cases ha : tAcc.owner = a
          · subst ha
            have hocc : eligOccurs cs tAcc.owner = true := (ihMem _).mp hk
            simp [hocc]
          · rw [hEOf a ha]
            simp
        · exact pairwise_firstOcc_extend cs [some tAcc] _
            (fun a ha => (ihMem a).mp ha) ihPW
      · rw [keysOf_insertHolder_notMem _ _ _ hk]
        have hnocc : eligOccurs cs tAcc.owner = false := by
          cases hoc : eligOccurs cs tAcc.owner
          · rfl
          · exact absurd ((ihMem _).mpr hoc) hk
        constructor
        · intro a
          rw [List.mem_append, List.mem_singleton, ihMem a,
            eligOccurs_append, eligOccurs_singleton]
          by_cases ha : tAcc.owner = a
          · subst ha
            simp [(hEO _).mpr rfl]
          · rw [hEOf a ha]
            simp [show ¬ a = tAcc.owner from fun hcon => ha hcon.symm]
        · rw [List.pairwise_append]
          refine ⟨pairwise_firstOcc_extend cs [some tAcc] _
            (fun a ha => (ihMem a).mp ha) ihPW, by simp, ?_⟩
          intro a ha b hb
          rw [List.mem_singleton] at hb
          subst hb
          have hoa : eligOccurs cs a = true := (ihMem a).mp ha
          have h1 : firstOcc (cs ++ [some tAcc]) a = firstOcc cs a :=
            firstOcc_append_of_occurs cs _ a hoa
          have h2 : firstOcc (cs ++ [some tAcc]) tAcc.owner = cs.length := by
            rw [firstOcc_append_of_not cs _ _ hnocc]
            simp [firstOcc, (hEO _).mpr rfl]
          rw [h1, h2]
          exact firstOcc_lt_length cs a hoa

/-! ## Sort lemmas -/

theorem mem_insertDesc (x p : Entry) (l : List Entry) :
    p ∈ insertDesc x l ↔ p = x ∨ p ∈ l := by
  induction l with
  | nil => simp [insertDesc]
  | cons y ys ih =>
    by_cases h : y.2 ≤ x.2
    · simp [insertDesc, h]
    · simp [insertDesc, h, ih]
      tauto

theorem mem_sortDesc (p : Entry) (l : List Entry) :
    p ∈ sortDesc l ↔ p ∈ l := by
  induction l with
  | nil => simp [sortDesc]
  | cons x xs ih => simp [sortDesc, mem_insertDesc, ih]

theorem insertDesc_perm (x : Entry) (l : List Entry) :
    (insertDesc x l).Perm (x :: l) := by
  induction l with
  | nil => simp [insertDesc]
  | cons y ys ih =>
    by_cases h : y.2 ≤ x.2
    · simp [insertDesc, h]
    · have hstep : insertDesc x (y :: ys) = y :: insertDesc x ys := by
        simp [insertDesc, h]
      rw [hstep]
      exact (ih.cons y).trans (List.Perm.swap x y ys)

theorem sortDesc_perm (l : List Entry) : (sortDesc l).Perm l := by
  induction l with
  | nil => exact List.Perm.refl _
  | cons x xs ih => exact (insertDesc_perm x (sortDesc xs)).trans (ih.cons x)

theorem pairwise_ne_sortDesc (l : List Entry)
    (h : l.Pairwise (fun p q => p.1 ≠ q.1)) :
    (sortDesc l).Pairwise (fun p q => p.1 ≠ q.1) := by
  exact ((sortDesc_perm l).pairwise_iff (fun h1 => Ne.symm h1)).mpr h

theorem insertDesc_pairwise (D : Entry → Entry → Prop) (x : Entry)
    (l : List Entry) (hl : l.Pairwise (sortRel D)) (hx : ∀ y ∈ l, D x y) :
    (insertDesc x l).Pairwise (sortRel D) := by
  induction l with
  | nil => simp [insertDesc, sortRel]
  | cons y ys ih =>
    rcases List.pairwise_cons.mp hl with ⟨hy, hys⟩
    by_cases h : y.2 ≤ x.2
    · have hstep : insertDesc x (y :: ys) = x :: y :: ys := by
        simp [insertDesc, h]
      rw [hstep]
      refine List.pairwise_cons.mpr ⟨?_, hl⟩
      intro z hz
      rcases List.mem_cons.mp hz with rfl | hz2
      · exact ⟨h, fun _ => hx z (List.mem_cons_self _ _)⟩
      · exact ⟨le_trans (hy z hz2).1 h,
          fun _ => hx z (List.mem_cons_of_mem _ hz2)⟩
    · have hstep : insertDesc x (y :: ys) = y :: insertDesc x ys := by
        simp [insertDesc, h]
      rw [hstep]
      refine List.pairwise_cons.mpr
        ⟨?_, ih hys (fun z hz => hx z (List.mem_cons_of_mem _ hz))⟩
      intro z hz
      rcases (mem_insertDesc x z ys).mp hz with rfl | hz2
      · have hlt : z.2 < y.2 := Nat.lt_of_not_le h
        exact ⟨Nat.le_of_lt hlt, fun heq => absurd hlt (by simp [heq])⟩
      · exact hy z hz2

theorem sortDesc_pairwise (D : Entry → Entry → Prop) (l : List Entry)
    (h : l.Pairwise D) : (sortDesc l).Pairwise (sortRel D) := by
  induction l with
  | nil => simp [sortDesc]
  | cons x xs ih =>
    rcases List.pairwise_cons.mp h with ⟨hx, hxs⟩
    exact insertDesc_pairwise D x (sortDesc xs) (ih hxs)
      (fun y hy => hx y ((mem_sortDesc y xs).mp hy))

theorem sumAmt_pos (cs : List (Option TokenAccount)) (a : Nat)
    (h : eligOccurs cs a = true) : 0 < sumAmt cs a := by
  induction cs with
  | nil => simp [eligOccurs] at h
  | cons c cs ih =>
    by_cases hc : eligOwner c a = true
    · have hpos : 0 < amtOf c := by
        match c with
        | none => simp [eligOwner] at hc
        | some tAcc =>
          rcases (eligOwner_some_iff tAcc a).mp hc with ⟨_, h2, _⟩
          simpa [amtOf] using Nat.pos_of_ne_zero h2
      simp only [sumAmt, contrib, hc, if_pos]
      omega
    · have h2 : eligOccurs cs a = true := by
        simpa [eligOccurs, hc] using h
      have := ih h2
      simp only [sumAmt]
      omega

theorem snd_eq_lookupAmt (m : List Entry)
    (hnd : (keysOf m).Pairwise (fun a b => a ≠ b)) (p : Entry) (hp : p ∈ m) :
    p.2 = lookupAmt m p.1 := by
  induction m with
  | nil => simp at hp
  | cons e rest ih =>
    obtain ⟨k, w⟩ := e
    have hnd2 := List.pairwise_cons.mp
      (show (k :: keysOf rest).Pairwise (fun a b => a ≠ b) from hnd)
    rcases List.mem_cons.mp hp with rfl | hp2
    · simp [lookupAmt]
    · have hk : k ≠ p.1 :=
        hnd2.1 p.1 (List.mem_map_of_mem Prod.fst hp2)
      simp only [lookupAmt, if_neg hk]
      exact ih hnd2.2 hp2

/-! ## Claims C4 and C9: the holder-registry refresh -/

/-- C4 counterexample. Three eligible candidates all owned by address 7 with
balances 1, 4 and 8, and limit 1: the refresh only processes the first
limit * 2 = 2 candidates, so its single output entry carries balance 5
although the sum of all of address 7's balances in the candidate list is 13,
contradicting the claim that duplicates merge into one entry whose balance is
the sum of all that address's balances. -/
theorem refresh_merge_counterexample :
    fetchTopHolders
      [some ⟨7, true, 1⟩, some ⟨7, true, 4⟩, some ⟨7, true, 8⟩] 1
      = [(7, 5)] ∧
    sumAmt [some ⟨7, true, 1⟩, some ⟨7, true, 4⟩, some ⟨7, true, 8⟩] 7
      = 13 := by
  constructor
  · rfl
  · rfl

/-- C4 (amended). For every candidate list and limit, the refresh considers
only the first limit * 2 candidates (the oversampling window); it returns at
most limit entries with pairwise distinct addresses, and every returned entry
has a positive balance equal to the sum of the balances of all eligible
(present, on-curve, nonzero) candidates in that window owned by its address;
in particular every returned address has an eligible on-curve occurrence in
the window, so off-curve owners and zero balances are excluded. -/
theorem refresh_window_properties (cands : List (Option TokenAccount))
    (limit : Nat) :
    (fetchTopHolders cands limit).length ≤ limit ∧
    (fetchTopHolders cands limit).Pairwise (fun p q => p.1 ≠ q.1) ∧
    ∀ p ∈ fetchTopHolders cands limit,
      eligOccurs (cands.take (limit * 2)) p.1 = true ∧
      0 < p.2 ∧
      p.2 = sumAmt (cands.take (limit * 2)) p.1 := by
  have hkeys := buildHolderMap_keys (cands.take (limit * 2))
  have hnd : (keysOf (buildHolderMap (cands.take (limit * 2)))).Pairwise
      (fun a b => a ≠ b) :=
    hkeys.2.imp (fun hlt heq => by subst heq; exact Nat.lt_irrefl _ hlt)
  refine ⟨List.length_take_le _ _, ?_, ?_⟩
  · have hndm : (buildHolderMap (cands.take (limit * 2))).Pairwise
        (fun p q => p.1 ≠ q.1) := by
      rw [keysOf] at hnd
      exact (@List.pairwise_map _ _ Prod.fst (fun a b => a ≠ b) _).mp hnd
    exact (pairwise_ne_sortDesc _ hndm).sublist (List.take_sublist _ _)
  · intro p hp
    have hpmem : p ∈ buildHolderMap (cands.take (limit * 2)) := by
      have h1 : p ∈ sortDesc (buildHolderMap (cands.take (limit * 2))) :=
        (List.take_sublist _ _).subset hp
      exact (mem_sortDesc p _).mp h1
    have hkey : p.1 ∈ keysOf (buildHolderMap (cands.take (limit * 2))) :=
      List.mem_map_of_mem Prod.fst hpmem
    have hocc : eligOccurs (cands.take (limit * 2)) p.1 = true :=
      (hkeys.1 p.1).mp hkey
    have hval : p.2 = sumAmt (cands.take (limit * 2)) p.1 := by
      rw [snd_eq_lookupAmt _ hnd p hpmem, lookupAmt_buildHolderMap]
    refine ⟨hocc, ?_, hval⟩
    rw [hval]
    exact sumAmt_pos _ _ hocc

/-- Closed instance of the amended C4 theorem at a concrete input. -/
theorem refresh_window_properties_witness :
    (fetchTopHolders [some ⟨3, true, 2⟩, some ⟨3, true, 4⟩] 5).length ≤ 5 ∧
    (fetchTopHolders [some ⟨3, true, 2⟩, some ⟨3, true, 4⟩] 5).Pairwise
      (fun p q => p.1 ≠ q.1) ∧
    ∀ p ∈ fetchTopHolders [some ⟨3, true, 2⟩, some ⟨3, true, 4⟩] 5,
      eligOccurs (([some ⟨3, true, 2⟩, some ⟨3, true, 4⟩] :
        List (Option TokenAccount)).take (5 * 2)) p.1 = true ∧
      0 < p.2 ∧
      p.2 = sumAmt (([some ⟨3, true, 2⟩, some ⟨3, true, 4⟩] :
        List (Option TokenAccount)).take (5 * 2)) p.1 :=
  refresh_window_properties [some ⟨3, true, 2⟩, some ⟨3, true, 4⟩] 5

/-- C9. For every candidate list and limit, the holder-registry refresh
output is sorted in descending order of balance, and whenever two output
entries have exactly equal balances, the earlier one is the one whose address
has the earlier first eligible occurrence in the input candidate list: the
stable sort breaks ties by first-seen order. Determinism across runs holds
because the refresh is a pure function of its input. -/
theorem refresh_sorted_stable (cands : List (Option TokenAccount))
    (limit : Nat) :
    (fetchTopHolders cands limit).Pairwise
      (sortRel (fun p q => firstOcc cands p.1 < firstOcc cands q.1)) := by
  have hkeys := buildHolderMap_keys (cands.take (limit * 2))
  have hD : (buildHolderMap (cands.take (limit * 2))).Pairwise
      (fun p q => firstOcc cands p.1 < firstOcc cands q.1) := by
    have h1 : (keysOf (buildHolderMap (cands.take (limit * 2)))).Pairwise
        (fun a b => firstOcc cands a < firstOcc cands b) := by
      refine hkeys.2.imp_of_mem ?_
      intro a b ha hb hlt
      have hoa := (hkeys.1 a).mp ha
      have hob := (hkeys.1 b).mp hb
      have hca : firstOcc cands a = firstOcc (cands.take (limit * 2)) a := by
        conv_lhs => rw [← List.take_append_drop (limit * 2) cands]
        exact firstOcc_append_of_occurs _ _ a hoa
      have hcb : firstOcc cands b = firstOcc (cands.take (limit * 2)) b := by
        conv_lhs => rw [← List.take_append_drop (limit * 2) cands]
        exact firstOcc_append_of_occurs _ _ b hob
      rw [hca, hcb]
      exact hlt
    rw [keysOf] at h1
    exact (@List.pairwise_map _ _ Prod.fst
      (fun a b => firstOcc cands a < firstOcc cands b) _).mp h1
  exact (sortDesc_pairwise _ _ hD).sublist (List.take_sublist _ _)

/-- Closed instance of the C9 theorem at a concrete input. -/
theorem refresh_sorted_stable_witness :
    (fetchTopHolders [some ⟨1, true, 5⟩, some ⟨2, true, 9⟩] 20).Pairwise
      (sortRel (fun p q =>
        firstOcc [some ⟨1, true, 5⟩, some ⟨2, true, 9⟩] p.1
          < firstOcc [some ⟨1, true, 5⟩, some ⟨2, true, 9⟩] q.1)) :=
  refresh_sorted_stable [some ⟨1, true, 5⟩, some ⟨2, true, 9⟩] 20

/-! ## Orchestrator lemmas and claims C5, C6, C8 -/

theorem mainRun_full (env : OrchestratorEnv) (p : ℚ) (s d : Nat)
    (cs : List (Option TokenAccount))
    (h1 : env.pending = some p) (h2 : ¬ p < env.threshold)
    (h3 : env.claimSig = some s) (h4 : env.cands = some cs)
    (h5 : fetchTopHolders cs 20 ≠ []) (h6 : env.distSig = some d) :
    mainRun env = (0, [Step.queryPending, Step.claimFees, Step.fetchHolders,
      Step.distribute]) := by
  have hne : (fetchTopHolders cs 20).isEmpty = false := by
    cases hfe : fetchTopHolders cs 20 with
    | nil => exact absurd hfe h5
    | cons a l => rfl
  simp [mainRun, h1, h2, h3, h4, hne, h6]

theorem buildGo_of_all_inelig (ds : List (Option TokenAccount))
    (m : List Entry) (h : ∀ c ∈ ds, isElig c = false) : buildGo m ds = m := by
  induction ds generalizing m with
  | nil => rfl
  | cons c ds ih =>
    simp only [buildGo]
    rw [processCand_of_not_elig m c (h c (List.mem_cons_self _ _))]
    exact ih m (fun x hx => h x (List.mem_cons_of_mem _ hx))

/-- C5. When the queried pending creator-fee balance is below the configured
reward threshold, the orchestrator run exits with status 0 after only the
balance query: it claims no fees, fetches no holders, and submits neither an
update-holders nor a distribute request, so no ledger mutation occurs. -/
theorem threshold_not_met_clean_exit (env : OrchestratorEnv) (p : ℚ)
    (h1 : env.pending = some p) (h2 : p < env.threshold) :
    mainRun env = (0, [Step.queryPending]) ∧
    Step.claimFees ∉ (mainRun env).2 ∧
    Step.fetchHolders ∉ (mainRun env).2 ∧
    Step.updateHolders ∉ (mainRun env).2 ∧
    Step.distribute ∉ (mainRun env).2 := by
  have hm : mainRun env = (0, [Step.queryPending]) := by
    simp [mainRun, h1, h2]
  refine ⟨hm, ?_, ?_, ?_, ?_⟩ <;> rw [hm] <;> decide

/-- Closed instance of the C5 theorem: pending 1 SOL, threshold 2 SOL. -/
theorem threshold_not_met_clean_exit_witness :
    mainRun { pending := some 1, threshold := 2, claimSig := some 0,
              cands := some [], distSig := some 0 } = (0, [Step.queryPending]) :=
  (threshold_not_met_clean_exit _ 1 rfl (by norm_num)).1

/-- C6 counterexample. A cycle in which the threshold is met runs through a
successful distribute, yet its trace contains no update-holders submission at
all: the claim that an update-holders request is submitted before the
distribute request of the same cycle is false for this run. -/
theorem orchestrator_no_update_request :
    mainRun { pending := some 5, threshold := 1, claimSig := some 0,
              cands := some [some ⟨1, true, 10⟩], distSig := some 0 }
      = (0, [Step.queryPending, Step.claimFees, Step.fetchHolders,
        Step.distribute]) ∧
    Step.updateHolders ∉ (mainRun { pending := some 5, threshold := 1,
                                    claimSig := some 0, cands := some [some ⟨1, true, 10⟩],
                                    distSig := some 0 }).2 := by
  have hm := mainRun_full
    { pending := some 5, threshold := 1, claimSig := some 0,
      cands := some [some ⟨1, true, 10⟩], distSig := some 0 }
    5 0 0 [some ⟨1, true, 10⟩] rfl (by norm_num) rfl rfl (by decide) rfl
  exact ⟨hm, by rw [hm]; decide⟩

/-- C6 (amended). In every orchestrator cycle where the threshold is met and
each step succeeds, the external calls occur in exactly this order: query
pending fees, claim creator fees into the vault, refresh the holder ranking,
then submit a single distribute request that itself carries the refreshed
holder list; no separate update-holders request is submitted at any point. -/
theorem orchestrator_step_order (env : OrchestratorEnv) (p : ℚ) (s d : Nat)
    (cs : List (Option TokenAccount))
    (h1 : env.pending = some p) (h2 : ¬ p < env.threshold)
    (h3 : env.claimSig = some s) (h4 : env.cands = some cs)
    (h5 : fetchTopHolders cs 20 ≠ []) (h6 : env.distSig = some d) :
    mainRun env = (0, [Step.queryPending, Step.claimFees, Step.fetchHolders,
      Step.distribute]) ∧
    Step.updateHolders ∉ (mainRun env).2 := by
  have hm := mainRun_full env p s d cs h1 h2 h3 h4 h5 h6
  exact ⟨hm, by rw [hm]; decide⟩

/-- Closed instance of the amended C6 theorem at a concrete environment. -/
theorem orchestrator_step_order_witness :
    mainRun { pending := some 5, threshold := 1, claimSig := some 7,
              cands := some [some ⟨2, true, 3⟩], distSig := some 9 }
      = (0, [Step.queryPending, Step.claimFees, Step.fetchHolders,
        Step.distribute]) :=
  (orchestrator_step_order
    { pending := some 5, threshold := 1, claimSig := some 7,
      cands := some [some ⟨2, true, 3⟩], distSig := some 9 }
    5 7 9 [some ⟨2, true, 3⟩] rfl (by norm_num) rfl rfl (by decide) rfl).1

/-- C8 counterexample. A candidate list whose only account has an off-curve
owner leaves no eligible candidate after filtering, and the refresh returns
the empty list as an ordinary value instead of failing with an
EmptyCandidateSet error. -/
theorem refresh_returns_empty_list :
    fetchTopHolders [some ⟨1, false, 5⟩] 20 = [] := rfl

/-- C8 (amended). When no eligible candidates remain after filtering, the
refresh returns an empty list (it does not raise an error); the orchestrator
then aborts the cycle cleanly (exit 0) right after the holder fetch, so no
distribute request — and no update-holders request — is submitted and the
previously stored on-chain holder list is retained. -/
theorem refresh_empty_aborts_cycle (env : OrchestratorEnv) (p : ℚ) (s : Nat)
    (cs : List (Option TokenAccount))
    (h1 : env.pending = some p) (h2 : ¬ p < env.threshold)
    (h3 : env.claimSig = some s) (h4 : env.cands = some cs)
    (h5 : ∀ c ∈ cs, isElig c = false) :
    fetchTopHolders cs 20 = [] ∧
    mainRun env = (0, [Step.queryPending, Step.claimFees,
      Step.fetchHolders]) ∧
    Step.distribute ∉ (mainRun env).2 ∧
    Step.updateHolders ∉ (mainRun env).2 := by
  have hfetch : fetchTopHolders cs 20 = [] := by
    have hmap : buildHolderMap (cs.take (20 * 2)) = [] :=
      buildGo_of_all_inelig _ []
        (fun c hc => h5 c ((List.take_sublist _ _).subset hc))
    simp [fetchTopHolders, hmap, sortDesc]
  have hm : mainRun env = (0, [Step.queryPending, Step.claimFees,
      Step.fetchHolders]) := by
    simp [mainRun, h1, h2, h3, h4, hfetch]
  exact ⟨hfetch, hm, by rw [hm]; decide, by rw [hm]; decide⟩

/-- Closed instance of the amended C8 theorem at a concrete environment. -/
theorem refresh_empty_aborts_cycle_witness :
    fetchTopHolders [some ⟨1, false, 5⟩] 20 = [] ∧
    mainRun { pending := some 3, threshold := 1, claimSig := some 0,
              cands := some [some ⟨1, false, 5⟩], distSig := some 0 }
      = (0, [Step.queryPending, Step.claimFees, Step.fetchHolders]) := by
  have h := refresh_empty_aborts_cycle
    { pending := some 3, threshold := 1, claimSig := some 0,
      cands := some [some ⟨1, false, 5⟩], distSig := some 0 }
    3 0 [some ⟨1, false, 5⟩] rfl (by norm_num) rfl rfl (by decide)
  exact ⟨h.1, h.2.1⟩

/-! ## Claim C7: distribute with an empty holder list -/

/-- C7. Invoking the client distribute operation with an empty holder list
fails with the EmptyHolderSet error before any transaction is built or
submitted; since no ledger request of any kind is produced, applying the
submitted requests (under any on-chain transition) to the pool leaves both
counters totalRewardsReceived and totalDistributed unchanged. -/
theorem distribute_empty_holder_set (pool : Pool)
    (applyReq : Pool → DistributeReq → Pool) :
    distributeRewardsBot [] = Except.error DistErr.emptyHolderSet ∧
    submittedReqs (distributeRewardsBot []) = [] ∧
    List.foldl applyReq pool (submittedReqs (distributeRewardsBot []))
      = pool :=
  ⟨rfl, rfl, rfl⟩

/-- Closed instance of the C7 theorem at a concrete pool state and a
counter-incrementing on-chain transition. -/
theorem distribute_empty_holder_set_witness :
    distributeRewardsBot [] = Except.error DistErr.emptyHolderSet ∧
    submittedReqs (distributeRewardsBot []) = [] ∧
    List.foldl
      (fun (pl : Pool) (r : DistributeReq) =>
        ({ totalRewardsReceived := pl.totalRewardsReceived,
           totalDistributed :=
             pl.totalDistributed + r.holders.length } : Pool))
      (⟨11, 4⟩ : Pool) (submittedReqs (distributeRewardsBot []))
      = (⟨11, 4⟩ : Pool) :=
  distribute_empty_holder_set ⟨11, 4⟩ _

/-! ## Claim C10: the owner-withdraw entry point -/

/-- C10. The withdraw entry point converts the requested SOL amount to
lamports by flooring amount * 10^9, and raises an error before any ledger
request when the input is missing, when it parses to NaN, or when the floored
lamport amount is at most zero; an error result submits no withdrawal. -/
theorem withdraw_guard_rejects_invalid (raw : Option ParsedAmount) :
    (∀ q : ℚ, amountLamports (ParsedAmount.num q)
      = LamportsVal.int ⌊q * 1000000000⌋) ∧
    (raw = none →
      withdrawGuard raw = Except.error WithdrawErr.missingAmount) ∧
    (raw = some ParsedAmount.nan →
      withdrawGuard raw = Except.error WithdrawErr.invalidAmount) ∧
    (∀ q : ℚ, raw = some (ParsedAmount.num q) → ⌊q * 1000000000⌋ ≤ 0 →
      withdrawGuard raw = Except.error WithdrawErr.invalidAmount) ∧
    (∀ e, withdrawGuard raw = Except.error e →
      submittedWithdrawals (withdrawGuard raw) = []) := by
  refine ⟨fun q => rfl, ?_, ?_, ?_, ?_⟩
  · intro h; subst h; rfl
  · intro h; subst h; rfl
  · intro q hq hle
    subst hq
    simp [withdrawGuard, amountLamports, isNaNLamports, lamportsNonpos, hle]
  · intro e he
    rw [he]
    rfl

/-- Closed instance of the C10 theorem: the input 0 floors to 0 lamports and
is rejected before any ledger request. -/
theorem withdraw_guard_rejects_invalid_witness :
    withdrawGuard (some (ParsedAmount.num 0))
      = Except.error WithdrawErr.invalidAmount :=
  (withdraw_guard_rejects_invalid (some (ParsedAmount.num 0))).2.2.2.1 0 rfl
    (by norm_num)

end SolanaPool
